import Mathlib

/-!
Verification of the core data model and algorithms of the
notepadpp-multireplace plugin (MultiReplacePanel.h and its companion
header).  Pure structures and member functions are translated directly
from the headers; the bodies of the algorithmic member functions are not
part of the repository snapshot (headers only), so those are modelled
from the specification, as noted on each definition.

Text is modelled as `List Char` (the byte/character sequence of a
`std::string`), buffer positions as natural numbers or integers
(matching the signed `LRESULT`/`Sci_Position` where shifts occur).
-/

/-- Kind of a buffer change, from `MultiReplace::ChangeType` in
MultiReplacePanel.h. -/
inductive ChangeType where
  | insert
  | delete
  | modify
deriving DecidableEq, Repr

/-- One find/replace rule, from `struct ReplaceItemData` in
MultiReplacePanel.h (lines 39-67).  The wide strings are modelled as
`String`, the numeric id as `Nat`. -/
structure ReplaceItemData where
  id : Nat := 0
  findCount : String := ""
  replaceCount : String := ""
  isEnabled : Bool := true
  findText : String := ""
  replaceText : String := ""
  wholeWord : Bool := false
  matchCase : Bool := false
  useVariables : Bool := false
  extended : Bool := false
  regex : Bool := false
deriving DecidableEq, Repr

/-- `ReplaceItemData::operator==` (MultiReplacePanel.h lines 53-62):
compares exactly `isEnabled`, `findText`, `replaceText`, `wholeWord`,
`matchCase`, `extended` and `regex`. -/
def ReplaceItemData.eqOp (a rhs : ReplaceItemData) : Bool :=
  a.isEnabled == rhs.isEnabled &&
  a.findText == rhs.findText &&
  a.replaceText == rhs.replaceText &&
  a.wholeWord == rhs.wholeWord &&
  a.matchCase == rhs.matchCase &&
  a.extended == rhs.extended &&
  a.regex == rhs.regex

/-- `ReplaceItemData::operator!=` (MultiReplacePanel.h lines 64-66). -/
def ReplaceItemData.neOp (a rhs : ReplaceItemData) : Bool :=
  !(a.eqOp rhs)

/-- Column-scope configuration, from `struct ColumnDelimiterData` in
MultiReplacePanel.h (lines 103-118).  `columns` models the `std::set`
as the list of its elements, the two `std::string`s as `List Char`. -/
structure ColumnDelimiterData where
  inputColumns : List Nat := []
  columns : List Nat := []
  extendedDelimiter : List Char := []
  quoteChar : List Char := []
deriving DecidableEq, Repr

/-- `ColumnDelimiterData::isValid` (MultiReplacePanel.h lines 113-117):
the quote character must be empty or a single `"` or `'`, and both the
column set and the delimiter must be non-empty. -/
def ColumnDelimiterData.isValid (d : ColumnDelimiterData) : Bool :=
  let isQuoteCharValid := d.quoteChar.isEmpty ||
    (d.quoteChar.length == 1 &&
      (d.quoteChar.headD ' ' == '"' || d.quoteChar.headD ' ' == '\''))
  !d.columns.isEmpty && !d.extendedDelimiter.isEmpty && isQuoteCharValid

/-- Modelled from the spec: the scanning loop of
`MultiReplace::findDelimitersInLine` (declared in MultiReplacePanel.h
line 494; its body is not in the repository snapshot).  Scans the line
left to right from index `i`; a configured quote character toggles the
"inside quote" state, a delimiter occurrence outside a quoted span is
recorded and the scan advances past it, and an unmatched trailing quote
simply leaves the state open to the end of the line. -/
def scanLineAux (delim : List Char) (quote : Option Char) :
    Nat → List Char → Nat → Bool → List Nat
  | 0, _, _, _ => []
  | _ + 1, [], _, _ => []
  | fuel + 1, c :: rest, i, inQuote =>
    if some c = quote then
      scanLineAux delim quote fuel rest (i + 1) (!inQuote)
    else if !inQuote && delim ≠ [] && delim.isPrefixOf (c :: rest) then
      i :: scanLineAux delim quote fuel (rest.drop (delim.length - 1))
        (i + delim.length) inQuote
    else
      scanLineAux delim quote fuel rest (i + 1) inQuote

/-- Modelled from the spec: `MultiReplace::findDelimitersInLine`
restricted to one line's text: the ordered delimiter offsets of that
line, honouring the configured quote character (the first character of
`quoteChar` when the scope carries one).  The fuel argument of the
scanning loop is the line length, so the scan always reaches the end of
the line. -/
def findDelimitersInLine (d : ColumnDelimiterData) (line : List Char) :
    List Nat :=
  scanLineAux d.extendedDelimiter d.quoteChar.head? line.length line 0 false

/-- Modelled from the spec: the column-membership query behind
`MultiReplace::getColumnInfo` (declared in MultiReplacePanel.h line 495;
its body is not in the repository snapshot).  Given the scanned
delimiter offsets of a line, the 1-based column holding offset `off`:
column N spans from the end of delimiter N-1 to the start of delimiter
N (line end for the last column).  An invalid scope admits no column
("no columns selected"). -/
def columnOfOffset (d : ColumnDelimiterData) (line : List Char)
    (off : Nat) : Option Nat :=
  if d.isValid then
    some (1 + ((findDelimitersInLine d line).filter
      (fun p => p + d.extendedDelimiter.length ≤ off)).length)
  else none

/-- Modelled from the spec: the admissibility query
`isOffsetInSelectedColumns` of §4.1 (whether a buffer offset lies in one
of the selected columns); an invalid scope admits no offset. -/
def isOffsetInSelectedColumns (d : ColumnDelimiterData) (line : List Char)
    (off : Nat) : Bool :=
  match columnOfOffset d line off with
  | none => false
  | some c => d.columns.contains c

/-- Validity of the quote-character field alone, as `isValid` computes
it: empty, or exactly one `"` or `'`. -/
theorem quoteCharField_valid_iff (l : List Char) :
    (l.isEmpty || (l.length == 1 &&
      (l.headD ' ' == '"' || l.headD ' ' == '\''))) = true ↔
    (l = [] ∨ l = ['"'] ∨ l = ['\'']) := by
  match l with
  | [] => simp
  | [c] =>
    simp only [List.isEmpty, List.length, List.headD, Bool.or_eq_true,
      Bool.and_eq_true, beq_iff_eq]
    constructor
    · rintro (h | ⟨-, h | h⟩) <;> simp_all
    · rintro (h | h | h) <;> simp_all
  | c :: c2 :: rest =>
    simp [List.isEmpty]

/-- C2: a column scope is valid iff its column set is non-empty, its
delimiter is non-empty, and its quote character is absent or exactly
one `"` or `'`; when the scope is invalid every column-scope query
reports no column and admits no offset, raising no error. -/
theorem columnScope_isValid_iff_and_degradation :
    (∀ d : ColumnDelimiterData, d.isValid = true ↔
      (d.columns ≠ [] ∧ d.extendedDelimiter ≠ [] ∧
        (d.quoteChar = [] ∨ d.quoteChar = ['"'] ∨ d.quoteChar = ['\'']))) ∧
    (∀ (d : ColumnDelimiterData) (line : List Char) (off : Nat),
      d.isValid = false →
        columnOfOffset d line off = none ∧
        isOffsetInSelectedColumns d line off = false) := by
  constructor
  · intro d
    have hq := quoteCharField_valid_iff d.quoteChar
    simp only [ColumnDelimiterData.isValid, Bool.and_eq_true,
      Bool.not_eq_eq_eq_not, Bool.not_true, ← List.isEmpty_iff,
      Bool.not_eq_true'] at *
    constructor
    · rintro ⟨⟨h1, h2⟩, h3⟩
      exact ⟨by simp_all, by simp_all, hq.mp h3⟩
    · rintro ⟨h1, h2, h3⟩
      exact ⟨⟨by simp_all, by simp_all⟩, hq.mpr h3⟩
  · intro d line off hd
    have h1 : columnOfOffset d line off = none := by
      simp [columnOfOffset, hd]
    exact ⟨h1, by simp [isOffsetInSelectedColumns, h1]⟩

/-- C10: `ReplaceItemData::operator==` compares exactly the seven
semantic fields (isEnabled, findText, replaceText, wholeWord,
matchCase, extended, regex); the id, findCount and replaceCount fields
never affect it, so two rules differing only in their running counters
compare equal. -/
theorem replaceItemData_eqOp_ignores_bookkeeping :
    (∀ a b : ReplaceItemData, a.eqOp b = true ↔
      (a.isEnabled = b.isEnabled ∧ a.findText = b.findText ∧
       a.replaceText = b.replaceText ∧ a.wholeWord = b.wholeWord ∧
       a.matchCase = b.matchCase ∧ a.extended = b.extended ∧
       a.regex = b.regex)) ∧
    (∀ (a b : ReplaceItemData) (i : Nat) (fc rc : String),
      ReplaceItemData.eqOp
        { a with id := i, findCount := fc, replaceCount := rc } b =
        a.eqOp b) ∧
    (∀ (a : ReplaceItemData) (i : Nat) (fc rc : String),
      ReplaceItemData.eqOp
        { a with id := i, findCount := fc, replaceCount := rc } a = true) := by
  refine ⟨fun a b => ?_, fun a b i fc rc => ?_, fun a i fc rc => ?_⟩ <;>
    simp [ReplaceItemData.eqOp, and_assoc]

/-- Modelled from the spec: the delimiter/quote configuration of the
§4.1 scenario, delimiter `,` and quote `"` with columns 1..3
selected. -/
def csvCommaQuote : ColumnDelimiterData :=
  { inputColumns := [1, 2, 3], columns := [1, 2, 3],
    extendedDelimiter := [','], quoteChar := ['"'] }

/-- Modelled from the spec: the fields of a line cut at the reported
delimiter offsets — column N runs from the end of delimiter N-1 to the
start of delimiter N, the last column to the end of the line. -/
def fieldsAux (dlen : Nat) (line : List Char) (start : Nat) :
    List Nat → List (List Char)
  | [] => [line.drop start]
  | p :: ps =>
    (line.drop start).take (p - start) :: fieldsAux dlen line (p + dlen) ps

/-- Modelled from the spec: the columns of one line under a column
scope, as the delimiter scan cuts them. -/
def columnsOfLine (d : ColumnDelimiterData) (line : List Char) :
    List (List Char) :=
  fieldsAux d.extendedDelimiter.length line 0 (findDelimitersInLine d line)

/-- Soundness invariant of the scanning loop: provided the quote
character does not occur in the delimiter, every offset the loop
reports is a real delimiter occurrence, and the text consumed before it
holds a number of quote characters whose parity equals the loop's
in-quote state — so a reported delimiter never lies inside a quoted
span. -/
theorem scanLineAux_mem_sound (delim : List Char) (q : Char)
    (hq : q ∉ delim) :
    ∀ (fuel : Nat) (l : List Char) (i : Nat) (inQ : Bool) (p : Nat),
      p ∈ scanLineAux delim (some q) fuel l i inQ →
      ∃ k, p = i + k ∧ delim.isPrefixOf (l.drop k) = true ∧
        List.count q (l.take k) % 2 = (if inQ then 1 else 0) := by
  intro fuel
  induction fuel with
  | zero =>
    intro l i inQ p h
    simp [scanLineAux] at h
  | succ fuel ih =>
    intro l i inQ p h
    match l with
    | [] => simp [scanLineAux] at h
    | c :: rest =>
      rw [scanLineAux] at h
      by_cases hcq : some c = some q
      · rw [if_pos hcq] at h
        have hc : c = q := by injection hcq
        obtain ⟨k', rfl, hpre, hcnt⟩ := ih rest (i + 1) (!inQ) p h
        refine ⟨k' + 1, by omega, by simpa using hpre, ?_⟩
        subst hc
        simp only [List.take_succ_cons, List.count_cons, beq_self_eq_true,
          if_true]
        cases inQ <;> simp_all <;> omega
      · rw [if_neg hcq] at h
        have hcq2 : c ≠ q := fun he => hcq (by rw [he])
        by_cases hcond :
            (!inQ && decide (delim ≠ []) && delim.isPrefixOf (c :: rest)) =
              true
        · rw [if_pos hcond] at h
          simp only [Bool.and_eq_true, Bool.not_eq_true',
            decide_eq_true_eq] at hcond
          obtain ⟨⟨hinQ, hne⟩, hpre0⟩ := hcond
          subst hinQ
          rcases List.mem_cons.mp h with rfl | h2
          · exact ⟨0, by omega, by simpa using hpre0, by simp⟩
          · obtain ⟨k', rfl, hpre, hcnt⟩ :=
              ih (rest.drop (delim.length - 1)) (i + delim.length) false p h2
            obtain ⟨t, ht⟩ := List.isPrefixOf_iff_prefix.mp hpre0
            have hdl : 1 ≤ delim.length := by
              cases delim with
              | nil => exact absurd rfl hne
              | cons a as => simp
            have hdrop : (c :: rest).drop delim.length =
                rest.drop (delim.length - 1) := by
              cases delim with
              | nil => exact absurd rfl hne
              | cons a as => simp
            have ht2 : t = rest.drop (delim.length - 1) := by
              have := congrArg (List.drop delim.length) ht
              simpa [List.drop_append, hdrop] using this
            refine ⟨delim.length + k', by omega, ?_, ?_⟩
            · rw [← ht, List.drop_append, ht2]
              exact hpre
            · rw [← ht, List.take_append, List.count_append,
                List.count_eq_zero.mpr hq, ht2]
              simpa using hcnt
        · rw [if_neg hcond] at h
          obtain ⟨k', rfl, hpre, hcnt⟩ := ih rest (i + 1) inQ p h
          refine ⟨k' + 1, by omega, by simpa using hpre, ?_⟩
          simp only [List.take_succ_cons, List.count_cons]
          have : (c == q) = false := by simpa using hcq2
          rw [this]
          simpa using hcnt

/-- C3: with a configured quote character the line scanner reports only
delimiter occurrences outside quoted spans — every reported offset is a
real delimiter occurrence preceded by an even number of quote
characters, so an occurrence inside a properly opened and closed quoted
span is never reported, and an unmatched trailing quote leaves the span
open to the end of the line without any error.  In particular for
delimiter `,` and quote `"` the line `a,"b,c",d` yields exactly the two
delimiter offsets 1 and 7, hence the three columns `a`, `"b,c"` and
`d`, and the malformed line `a,"b,c` yields only offset 1. -/
theorem findDelimitersInLine_respects_quoted_spans :
    (∀ (d : ColumnDelimiterData) (q : Char) (line : List Char) (p : Nat),
      d.quoteChar = [q] → q ∉ d.extendedDelimiter →
      p ∈ findDelimitersInLine d line →
        d.extendedDelimiter.isPrefixOf (line.drop p) = true ∧
        List.count q (line.take p) % 2 = 0) ∧
    findDelimitersInLine csvCommaQuote "a,\"b,c\",d".data = [1, 7] ∧
    columnsOfLine csvCommaQuote "a,\"b,c\",d".data =
      ["a".data, "\"b,c\"".data, "d".data] ∧
    findDelimitersInLine csvCommaQuote "a,\"b,c".data = [1] := by
  refine ⟨?_, by decide, by decide, by decide⟩
  intro d q line p hq hqd hp
  rw [findDelimitersInLine, hq] at hp
  obtain ⟨k, rfl, hpre, hcnt⟩ :=
    scanLineAux_mem_sound d.extendedDelimiter q hqd line.length line 0
      false p hp
  simp only [Nat.zero_add]
  exact ⟨hpre, by simpa using hcnt⟩

/-- C8: the column query is exhaustive and exclusive — it reports none
exactly when the scope is invalid; for a valid scope every offset of a
scanned line gets exactly one column index, and that index is one of
the line's 1-based columns (between 1 and the delimiter count plus
one), so no offset is unclassified and none belongs to two columns. -/
theorem columnOfOffset_exhaustive_exclusive :
    (∀ (d : ColumnDelimiterData) (line : List Char) (off : Nat),
      columnOfOffset d line off = none ↔ d.isValid = false) ∧
    (∀ (d : ColumnDelimiterData) (line : List Char) (off : Nat),
      d.isValid = true → ∃! c : Nat, columnOfOffset d line off = some c) ∧
    (∀ (d : ColumnDelimiterData) (line : List Char) (off : Nat) (c : Nat),
      columnOfOffset d line off = some c →
        1 ≤ c ∧ c ≤ (findDelimitersInLine d line).length + 1) ∧
    (columnOfOffset csvCommaQuote "a,\"b,c\",d".data 0 = some 1 ∧
     columnOfOffset csvCommaQuote "a,\"b,c\",d".data 4 = some 2 ∧
     columnOfOffset csvCommaQuote "a,\"b,c\",d".data 8 = some 3) := by
  refine ⟨?_, ?_, ?_, by decide, by decide, by decide⟩
  · intro d line off
    cases h : d.isValid <;> simp [columnOfOffset, h]
  · intro d line off h
    refine ⟨1 + ((findDelimitersInLine d line).filter
      (fun p => p + d.extendedDelimiter.length ≤ off)).length,
      by simp [columnOfOffset, h], fun y hy => ?_⟩
    simp only [columnOfOffset, h, if_true, Option.some.injEq] at hy
    omega
  · intro d line off c hc
    cases h : d.isValid with
    | false => simp [columnOfOffset, h] at hc
    | true =>
      simp only [columnOfOffset, h, if_true, Option.some.injEq] at hc
      have := List.length_filter_le
        (fun p => p + d.extendedDelimiter.length ≤ off)
        (findDelimitersInLine d line)
      omega

/-- Modelled from the spec: one-character comparison of the literal
matcher, case-sensitive or case-insensitive. -/
def charMatches (matchCase : Bool) (a b : Char) : Bool :=
  if matchCase then a == b else a.toLower == b.toLower

/-- Modelled from the spec: does the find text match at the head of the
remaining text, character by character. -/
def matchesAt (matchCase : Bool) : List Char → List Char → Bool
  | [], _ => true
  | _ :: _, [] => false
  | c :: f, d :: r => charMatches matchCase c d && matchesAt matchCase f r

/-- Modelled from the spec: the scanning loop of the forward literal
search — try each offset from `i` on. -/
def findFromAux (matchCase : Bool) (find : List Char) :
    List Char → Nat → Option Nat
  | [], i => if matchesAt matchCase find [] then some i else none
  | c :: rest, i =>
    if matchesAt matchCase find (c :: rest) then some i
    else findFromAux matchCase find rest (i + 1)

/-- Modelled from the spec: `MultiReplace::performSearchForward`
(declared in MultiReplacePanel.h line 462; its body is not in the
repository snapshot) in literal mode — the first match offset at or
after `start`, or none; a start past the end of the buffer finds
nothing. -/
def performSearchForward (matchCase : Bool) (find text : List Char)
    (start : Nat) : Option Nat :=
  if start ≤ text.length then
    findFromAux matchCase find (text.drop start) start
  else none

/-- Modelled from the spec: `performReplace` — splice the replacement
text over the match of length `len` at offset `pos`. -/
def performReplace (text : List Char) (pos len : Nat)
    (repl : List Char) : List Char :=
  text.take pos ++ repl ++ text.drop (pos + len)

/-- Modelled from the spec: the search position `replaceOne` hands to
the next `findNext` — just past the written replacement, advanced one
further unit when the match was zero-length (the explicit guard of
§8). -/
def nextSearchPos (pos findLen replLen : Nat) : Nat :=
  pos + replLen + (if findLen = 0 then 1 else 0)

/-- Every offset the search loop returns is at or after its start,
within the scanned suffix, and a real match. -/
theorem findFromAux_sound (mc : Bool) (find : List Char) :
    ∀ (l : List Char) (i p : Nat), findFromAux mc find l i = some p →
      i ≤ p ∧ p - i ≤ l.length ∧
        matchesAt mc find (l.drop (p - i)) = true := by
  intro l
  induction l with
  | nil =>
    intro i p h
    rw [findFromAux] at h
    by_cases hm : matchesAt mc find [] = true
    · rw [if_pos hm] at h
      obtain rfl : i = p := by injection h
      simpa using hm
    · simp [hm] at h
  | cons c rest ih =>
    intro i p h
    rw [findFromAux] at h
    by_cases hm : matchesAt mc find (c :: rest) = true
    · rw [if_pos hm] at h
      obtain rfl : i = p := by injection h
      simpa using hm
    · rw [if_neg hm] at h
      obtain ⟨h1, h2, h3⟩ := ih (i + 1) p h
      refine ⟨by omega, by simp; omega, ?_⟩
      have he : p - i = (p - (i + 1)) + 1 := by omega
      rw [he, List.drop_succ_cons]
      exact h3

/-- A successful head match consumes no more text than there is. -/
theorem matchesAt_length_le (mc : Bool) :
    ∀ (f l : List Char), matchesAt mc f l = true → f.length ≤ l.length := by
  intro f
  induction f with
  | nil => intro l _; simp
  | cons c f ih =>
    intro l h
    match l with
    | [] => simp [matchesAt] at h
    | d :: r =>
      rw [matchesAt, Bool.and_eq_true] at h
      have := ih r h.2
      simp only [List.length_cons]
      omega

/-- A successful forward search returns an offset at or after its
start whose match fits inside the buffer. -/
theorem performSearchForward_sound (mc : Bool) (find text : List Char)
    (start p : Nat) (h : performSearchForward mc find text start = some p) :
    start ≤ p ∧ p + find.length ≤ text.length ∧
      matchesAt mc find (text.drop p) = true := by
  rw [performSearchForward] at h
  by_cases hs : start ≤ text.length
  · rw [if_pos hs] at h
    obtain ⟨h1, h2, h3⟩ := findFromAux_sound mc find (text.drop start) start p h
    rw [List.drop_drop] at h3
    have he : start + (p - start) = p := by omega
    rw [he] at h3
    have h4 := matchesAt_length_le mc find (text.drop p) h3
    rw [List.length_drop] at h4
    rw [List.length_drop] at h2
    exact ⟨h1, by omega, h3⟩
  · simp [hs] at h

/-- Length of the buffer after splicing a replacement over a match
that fits inside it. -/
theorem performReplace_length (text : List Char) (pos len : Nat)
    (repl : List Char) (h : pos + len ≤ text.length) :
    (performReplace text pos len repl).length =
      text.length - len + repl.length := by
  simp only [performReplace, List.length_append, List.length_take,
    List.length_drop]
  omega

/-- C5: in literal mode, after `findNext` locates a match and
`replaceOne` splices the replacement, the next `findNext` from the
post-replace position can only return an offset at or past the end of
the just-written replacement (it never re-matches the written text); a
zero-length match advances the search position by at least one unit;
and the remaining-text measure strictly decreases on every
find/replace step, so a `replaceAll` pass over a finite buffer
terminates.  The concrete conjuncts walk one step of an empty-find
rule over `ab`. -/
theorem replaceOne_no_rematch_and_progress :
    (∀ (mc : Bool) (find repl text : List Char) (start pos : Nat),
      performSearchForward mc find text start = some pos →
      (∀ p, performSearchForward mc find
          (performReplace text pos find.length repl)
          (nextSearchPos pos find.length repl.length) = some p →
          pos + repl.length ≤ p) ∧
      (find.length = 0 →
        pos + 1 ≤ nextSearchPos pos find.length repl.length) ∧
      (performReplace text pos find.length repl).length + 1 -
          nextSearchPos pos find.length repl.length <
        text.length + 1 - start) ∧
    performSearchForward false [] "ab".data 0 = some 0 ∧
    performReplace "ab".data 0 0 "x".data = "xab".data ∧
    nextSearchPos 0 0 1 = 2 ∧
    performSearchForward false [] "xab".data 2 = some 2 := by
  refine ⟨?_, by decide, by decide, by decide, by decide⟩
  intro mc find repl text start pos h
  obtain ⟨hsp, hfit, hmatch⟩ :=
    performSearchForward_sound mc find text start pos h
  have hlen := performReplace_length text pos find.length repl hfit
  refine ⟨?_, ?_, ?_⟩
  · intro p hp
    have := (performSearchForward_sound mc find
      (performReplace text pos find.length repl)
      (nextSearchPos pos find.length repl.length) p hp).1
    unfold nextSearchPos at this
    omega
  · intro h0
    simp [nextSearchPos, h0]
  · rw [hlen]
    unfold nextSearchPos
    by_cases h0 : find.length = 0
    · rw [if_pos h0]
      omega
    · rw [if_neg h0]
      omega

/-- Modelled from the spec: the cancellation poll behind
`isLongRunCancelled` (companion header line 166) — between two matches
the engine asks whether the caller requested cancellation; the request
is modelled as "cancel once `k` replacements are committed". -/
def isLongRunCancelled (cancelAfter : Option Nat) (count : Nat) : Bool :=
  match cancelAfter with
  | none => false
  | some k => decide (k ≤ count)

/-- Modelled from the spec: the loop of `MultiReplace::replaceAll`
(declared in MultiReplacePanel.h line 448; its body is not in the
repository snapshot) in literal mode.  Between matches it polls the
cancellation flag, otherwise finds the next match from `pos`, splices
the replacement, counts it and continues past the written text.  The
fuel bounds the iteration count; `text.length + 1` always suffices
because every iteration strictly shrinks the remaining-text measure. -/
def replaceAllLoop (mc : Bool) (find repl : List Char)
    (cancelAfter : Option Nat) :
    Nat → List Char → Nat → Nat → Nat × List Char
  | 0, text, _, count => (count, text)
  | fuel + 1, text, pos, count =>
    if isLongRunCancelled cancelAfter count then (count, text)
    else
      match performSearchForward mc find text pos with
      | none => (count, text)
      | some m =>
        replaceAllLoop mc find repl cancelAfter fuel
          (performReplace text m find.length repl)
          (nextSearchPos m find.length repl.length) (count + 1)

/-- Modelled from the spec: a full uncancelled literal `replaceAll`
pass — replacement count and final buffer. -/
def replaceAllLiteral (mc : Bool) (find repl text : List Char) :
    Nat × List Char :=
  replaceAllLoop mc find repl none (text.length + 1) text 0 0

/-- Modelled from the spec: a literal `replaceAll` pass whose caller
requests cancellation once `k` replacements are committed. -/
def replaceAllCancellable (mc : Bool) (find repl : List Char) (k : Nat)
    (text : List Char) : Nat × List Char :=
  replaceAllLoop mc find repl (some k) (text.length + 1) text 0 0

/-- The cancelled loop never commits more than the requested number of
replacements. -/
theorem replaceAllLoop_count_le (mc : Bool) (find repl : List Char)
    (k : Nat) :
    ∀ (fuel : Nat) (text : List Char) (pos count : Nat), count ≤ k →
      (replaceAllLoop mc find repl (some k) fuel text pos count).1 ≤ k := by
  intro fuel
  induction fuel with
  | zero => intro text pos count h; simpa [replaceAllLoop]
  | succ fuel ih =>
    intro text pos count h
    rw [replaceAllLoop]
    by_cases hc : isLongRunCancelled (some k) count = true
    · rw [if_pos hc]; exact h
    · rw [if_neg hc]
      have hlt : count < k := by
        simp [isLongRunCancelled] at hc
        omega
      match performSearchForward mc find text pos with
      | none => exact h
      | some m => exact ih _ _ (count + 1) (by omega)

/-- Modelled from the spec: the ten-match buffer of the §8 cancellation
scenario. -/
def tenMatchBuffer : List Char := "x x x x x x x x x x".data

/-- C9: the engine polls the cancellation flag only between matches; a
pass cancelled after `k` committed replacements returns a count of at
most `k`, a cancellation already pending at entry leaves the buffer
completely untouched (nothing is rolled back), and in the concrete
scenario cancelling after 3 of 10 matches returns a count of exactly 3
with precisely the first three replacements in the buffer and matches
4 through 10 untouched, while the uncancelled pass commits all 10. -/
theorem replaceAll_cancellation_partial_completion :
    (∀ (mc : Bool) (find repl : List Char) (k : Nat) (text : List Char),
      (replaceAllCancellable mc find repl k text).1 ≤ k) ∧
    (∀ (mc : Bool) (find repl : List Char) (text : List Char),
      replaceAllCancellable mc find repl 0 text = (0, text)) ∧
    replaceAllCancellable true "x".data "y".data 3 tenMatchBuffer =
      (3, "y y y x x x x x x x".data) ∧
    replaceAllLiteral true "x".data "y".data tenMatchBuffer =
      (10, "y y y y y y y y y y".data) := by
  refine ⟨?_, ?_, by decide, by decide⟩
  · intro mc find repl k text
    exact replaceAllLoop_count_le mc find repl k (text.length + 1) text 0 0
      (Nat.zero_le k)
  · intro mc find repl text
    simp [replaceAllCancellable, replaceAllLoop, isLongRunCancelled]

/-- Modelled from the spec: the rule-list pass of
`handleReplaceAllButton`/`replaceAll` (MultiReplacePanel.h lines
446-448; bodies not in the repository snapshot).  Rules run in list
order; an enabled rule runs a literal `replaceAll` over the buffer the
previous rules left and records its counts, a disabled rule is skipped
and returned untouched. -/
def replaceAllInList : List ReplaceItemData → List Char →
    List ReplaceItemData × List Char
  | [], text => ([], text)
  | r :: rs, text =>
    if r.isEnabled then
      (({ r with
          findCount := toString (replaceAllLiteral r.matchCase
            r.findText.data r.replaceText.data text).1,
          replaceCount := toString (replaceAllLiteral r.matchCase
            r.findText.data r.replaceText.data text).1 }) ::
        (replaceAllInList rs (replaceAllLiteral r.matchCase
          r.findText.data r.replaceText.data text).2).1,
       (replaceAllInList rs (replaceAllLiteral r.matchCase
         r.findText.data r.replaceText.data text).2).2)
    else
      (r :: (replaceAllInList rs text).1, (replaceAllInList rs text).2)

/-- Modelled from the spec: the first rule of the §8 list-pass
scenario, find `cat`, replace `dog`, literal and case-sensitive. -/
def catRule : ReplaceItemData :=
  { findText := "cat", replaceText := "dog", matchCase := true }

/-- Modelled from the spec: the second rule of the §8 list-pass
scenario, find `dog`, replace `fish`, literal. -/
def dogRule : ReplaceItemData :=
  { findText := "dog", replaceText := "fish" }

/-- C4: a list pass runs the enabled rules in list order and each later
rule operates on the buffer left by the earlier rules — the rule list
[cat→dog (case-sensitive), dog→fish] over `cat dog` yields
`fish fish`; a disabled rule is skipped entirely, leaves the buffer to
the next rule unchanged and keeps its counters untouched. -/
theorem replaceAllInList_ordered_pass :
    (∀ (r : ReplaceItemData) (rs : List ReplaceItemData)
        (text : List Char), r.isEnabled = false →
      replaceAllInList (r :: rs) text =
        (r :: (replaceAllInList rs text).1,
         (replaceAllInList rs text).2)) ∧
    (∀ (r : ReplaceItemData) (rs : List ReplaceItemData)
        (text : List Char), r.isEnabled = true →
      (replaceAllInList (r :: rs) text).2 =
        (replaceAllInList rs (replaceAllLiteral r.matchCase
          r.findText.data r.replaceText.data text).2).2) ∧
    (replaceAllInList [catRule, dogRule] "cat dog".data).2 =
      "fish fish".data ∧
    (replaceAllInList [catRule, { dogRule with isEnabled := false }]
        "cat dog".data).2 = "dog dog".data ∧
    (replaceAllInList [catRule, { dogRule with isEnabled := false }]
        "cat dog".data).1.getD 1 catRule =
      { dogRule with isEnabled := false } := by
  refine ⟨?_, ?_, by decide, by decide, by decide⟩
  · intro r rs text h
    simp [replaceAllInList, h]
  · intro r rs text h
    simp [replaceAllInList, h]


/-- Modelled from the spec: the hexadecimal digit printer of the escape
table's `\x##` form (uppercase digits). -/
def hexDigitChar (v : Nat) : Char :=
  if v < 10 then Char.ofNat ('0'.toNat + v)
  else Char.ofNat ('A'.toNat + v - 10)

/-- Modelled from the spec: the value of one hexadecimal digit of a
`\x##` escape; a non-digit reads as 0 (never reached on well-formed
escapes). -/
def hexDigitVal (c : Char) : Nat :=
  if '0' ≤ c ∧ c ≤ '9' then c.toNat - '0'.toNat
  else if 'A' ≤ c ∧ c ≤ 'F' then c.toNat - 'A'.toNat + 10
  else if 'a' ≤ c ∧ c ≤ 'f' then c.toNat - 'a'.toNat + 10
  else 0

/-- Modelled from the spec: is this character a hexadecimal digit of a
`\x##` escape. -/
def isHexDigit (c : Char) : Bool :=
  ('0' ≤ c && c ≤ '9') || ('A' ≤ c && c ≤ 'F') || ('a' ≤ c && c ≤ 'f')

/-- Modelled from the spec: `MultiReplace::convertExtendedToString`
(declared in MultiReplacePanel.h lines 507-509; its body is not in the
repository snapshot) — decodes an escape-extended pattern through the
fixed escape table `\n`, `\t`, `\r`, `\0`, `\\`, `\x##`; a malformed
escape is kept verbatim. -/
def convertExtendedToString : List Char → List Char
  | [] => []
  | c :: rest =>
    if c = '\\' then
      match rest with
      | [] => ['\\']
      | e :: rest2 =>
        if e = 'n' then '\n' :: convertExtendedToString rest2
        else if e = 't' then '\t' :: convertExtendedToString rest2
        else if e = 'r' then '\r' :: convertExtendedToString rest2
        else if e = '0' then Char.ofNat 0 :: convertExtendedToString rest2
        else if e = '\\' then '\\' :: convertExtendedToString rest2
        else if e = 'x' then
          match rest2 with
          | [] => ['\\', 'x']
          | [d1] => ['\\', 'x', d1]
          | d1 :: d2 :: rest3 =>
            if isHexDigit d1 && isHexDigit d2 then
              Char.ofNat (16 * hexDigitVal d1 + hexDigitVal d2) ::
                convertExtendedToString rest3
            else '\\' :: 'x' :: d1 :: d2 :: convertExtendedToString rest3
        else '\\' :: e :: convertExtendedToString rest2
    else c :: convertExtendedToString rest

/-- Modelled from the spec: the per-character encoder of
`MultiReplace::escapeSpecialChars` (declared in MultiReplacePanel.h
lines 542-544; its body is not in the repository snapshot) — one
character's canonical spelling through the same fixed escape table. -/
def escapeChar (c : Char) : List Char :=
  if c = '\n' then ['\\', 'n']
  else if c = '\t' then ['\\', 't']
  else if c = '\r' then ['\\', 'r']
  else if c = Char.ofNat 0 then ['\\', '0']
  else if c = '\\' then ['\\', '\\']
  else if c.toNat < 32 then
    ['\\', 'x', hexDigitChar (c.toNat / 16), hexDigitChar (c.toNat % 16)]
  else [c]

/-- Modelled from the spec: `MultiReplace::escapeSpecialChars` —
encodes raw text through the fixed escape table, character by
character. -/
def escapeSpecialChars : List Char → List Char
  | [] => []
  | c :: rest => escapeChar c ++ escapeSpecialChars rest

/-- The hexadecimal printer and reader invert each other on one digit
value. -/
theorem hexDigit_roundtrip (v : Nat) (h : v < 16) :
    isHexDigit (hexDigitChar v) = true ∧
      hexDigitVal (hexDigitChar v) = v := by
  have hfin : ∀ w : Fin 16,
      isHexDigit (hexDigitChar w.val) = true ∧
        hexDigitVal (hexDigitChar w.val) = w.val := by decide
  exact hfin ⟨v, h⟩

/-- Decoding undoes the canonical encoding of one character, whatever
text follows it. -/
theorem convertExtendedToString_escapeChar (c : Char) (l : List Char) :
    convertExtendedToString (escapeChar c ++ l) =
      c :: convertExtendedToString l := by
  by_cases h1 : c = '\n'
  · subst h1
    have he : escapeChar '\n' = ['\\', 'n'] := by decide
    rw [he, List.cons_append, List.cons_append, List.nil_append,
      convertExtendedToString.eq_def]
    norm_num
  · by_cases h2 : c = '\t'
    · subst h2
      have he : escapeChar '\t' = ['\\', 't'] := by decide
      rw [he, List.cons_append, List.cons_append, List.nil_append,
        convertExtendedToString.eq_def]
      simp +decide
    · by_cases h3 : c = '\r'
      · subst h3
        have he : escapeChar '\r' = ['\\', 'r'] := by decide
        rw [he, List.cons_append, List.cons_append, List.nil_append,
          convertExtendedToString.eq_def]
        simp +decide
      · by_cases h4 : c = Char.ofNat 0
        · subst h4
          have he : escapeChar (Char.ofNat 0) = ['\\', '0'] := by decide
          rw [he, List.cons_append, List.cons_append, List.nil_append,
            convertExtendedToString.eq_def]
          simp +decide
        · by_cases h5 : c = '\\'
          · subst h5
            have he : escapeChar '\\' = ['\\', '\\'] := by decide
            rw [he, List.cons_append, List.cons_append, List.nil_append,
              convertExtendedToString.eq_def]
            simp +decide
          · by_cases h6 : c.toNat < 32
            · have hd1 := hexDigit_roundtrip (c.toNat / 16) (by omega)
              have hd2 := hexDigit_roundtrip (c.toNat % 16)
                (Nat.mod_lt _ (by omega))
              have hmod : 16 * (c.toNat / 16) + c.toNat % 16 = c.toNat := by
                omega
              have he : escapeChar c = ['\\', 'x',
                  hexDigitChar (c.toNat / 16),
                  hexDigitChar (c.toNat % 16)] := by
                rw [escapeChar, if_neg h1, if_neg h2, if_neg h3, if_neg h4,
                  if_neg h5, if_pos h6]
              rw [he, List.cons_append, List.cons_append, List.cons_append,
                List.cons_append, List.nil_append,
                convertExtendedToString.eq_def]
              simp +decide [hd1.1, hd2.1, hd1.2, hd2.2, hmod,
                Char.ofNat_toNat]
            · have he : escapeChar c = [c] := by
                rw [escapeChar, if_neg h1, if_neg h2, if_neg h3, if_neg h4,
                  if_neg h5, if_neg h6]
              rw [he, List.cons_append, List.nil_append,
                convertExtendedToString.eq_def]
              simp [h5]

/-- Decoding undoes the canonical encoding of any raw text. -/
theorem convertExtended_escape_id (l : List Char) :
    convertExtendedToString (escapeSpecialChars l) = l := by
  induction l with
  | nil => rfl
  | cons c rest ih =>
    rw [escapeSpecialChars, convertExtendedToString_escapeChar, ih]

/-- C6: through the fixed escape table, encoding then decoding is the
identity on every raw text, and therefore decoding then re-encoding is
the identity on every representable pattern — every pattern that is the
canonical encoding of some raw text; concretely the pattern `a\nb\x1Fc`
decodes to the raw characters a, newline, b, 0x1F, c and re-encodes to
itself. -/
theorem escapeTable_roundtrip_identity :
    (∀ raw : List Char,
      convertExtendedToString (escapeSpecialChars raw) = raw) ∧
    (∀ pattern raw : List Char, pattern = escapeSpecialChars raw →
      escapeSpecialChars (convertExtendedToString pattern) = pattern) ∧
    convertExtendedToString "a\\nb\\x1Fc".data =
      ['a', '\n', 'b', Char.ofNat 31, 'c'] ∧
    escapeSpecialChars ['a', '\n', 'b', Char.ofNat 31, 'c'] =
      "a\\nb\\x1Fc".data := by
  refine ⟨convertExtended_escape_id, ?_, by decide, by decide⟩
  intro pattern raw h
  subst h
  rw [convertExtended_escape_id]

/-- Modelled from the spec: the sort key of one row — the text of the
selected 1-based column of that line, as `extractColumnData` derives it
(declared in MultiReplacePanel.h line 482; body not in the repository
snapshot). -/
def extractColumnKey (d : ColumnDelimiterData) (col : Nat)
    (line : List Char) : List Char :=
  (columnsOfLine d line).getD (col - 1) []

/-- Modelled from the spec: the row order used by the stable ascending
column sort — keys compared first, ties broken by the original row
index, which is exactly "equal keys preserve relative original
order". -/
def rowOrderRel (key : Nat → List Char) (i j : Nat) : Prop :=
  key i < key j ∨ (key i = key j ∧ i ≤ j)

instance (key : Nat → List Char) : DecidableRel (rowOrderRel key) :=
  fun i j => by unfold rowOrderRel; infer_instance

instance (key : Nat → List Char) : IsTotal Nat (rowOrderRel key) where
  total i j := by
    unfold rowOrderRel
    rcases lt_trichotomy (key i) (key j) with h | h | h
    · exact Or.inl (Or.inl h)
    · rcases Nat.le_total i j with hle | hle
      · exact Or.inl (Or.inr ⟨h, hle⟩)
      · exact Or.inr (Or.inr ⟨h.symm, hle⟩)
    · exact Or.inr (Or.inl h)

instance (key : Nat → List Char) : IsTrans Nat (rowOrderRel key) where
  trans i j k hij hjk := by
    unfold rowOrderRel at *
    rcases hij with h1 | ⟨h1, h1l⟩ <;> rcases hjk with h2 | ⟨h2, h2l⟩
    · exact Or.inl (h1.trans h2)
    · exact Or.inl (h2 ▸ h1)
    · exact Or.inl (h1 ▸ h2)
    · exact Or.inr ⟨h1.trans h2, h1l.trans h2l⟩

/-- Modelled from the spec: the stable ascending sort permutation of
the `n` body rows — sorted position `k` holds original row
`(sortPermutation key n).get k`. -/
def sortPermutation (key : Nat → List Char) (n : Nat) : List Nat :=
  List.insertionSort (rowOrderRel key) (List.range n)

/-- Modelled from the spec: `MultiReplace::sortRowsByColumn` (declared
in MultiReplacePanel.h line 483; body not in the repository snapshot),
ascending: the configured header lines stay in place, the body rows are
reordered by the stable sort permutation of their keys. -/
def sortRowsByColumn (h : Nat) (key : List Char → List Char)
    (doc : List (List Char)) : List (List Char) :=
  doc.take h ++
    (sortPermutation (fun i => key ((doc.drop h).getD i []))
      (doc.length - h)).map (fun i => (doc.drop h).getD i [])

/-- Modelled from the spec: `originalLineOrder` (MultiReplacePanel.h
line 279) — the permutation captured at sort time, used only to restore
the pre-sort order. -/
def originalLineOrder (h : Nat) (key : List Char → List Char)
    (doc : List (List Char)) : List Nat :=
  sortPermutation (fun i => key ((doc.drop h).getD i []))
    (doc.length - h)

/-- Modelled from the spec:
`MultiReplace::restoreOriginalLineOrder` (declared in
MultiReplacePanel.h line 485; body not in the repository snapshot) —
body row `i` returns to its place from the sorted position that holds
it, headers stay in place. -/
def restoreOriginalLineOrder (order : List Nat) (h : Nat)
    (doc : List (List Char)) : List (List Char) :=
  doc.take h ++
    (List.range order.length).map
      (fun i => (doc.drop h).getD (order.indexOf i) [])

/-- The sort permutation is a permutation of the row indices. -/
theorem sortPermutation_perm (key : Nat → List Char) (n : Nat) :
    (sortPermutation key n).Perm (List.range n) :=
  List.perm_insertionSort _ _

/-- Reading every position of a list through `getD` rebuilds the
list. -/
theorem range_map_getD {α : Type} (l : List α) (d : α) :
    (List.range l.length).map (fun i => l.getD i d) = l := by
  apply List.ext_getElem (by simp)
  intro k h1 h2
  simp only [List.getElem_map, List.getElem_range]
  exact List.getD_eq_getElem l d h2

/-- Restoring after a column sort rebuilds the original document
byte for byte, provided the header count does not exceed the
document. -/
theorem restore_after_sortRows (h : Nat) (key : List Char → List Char)
    (doc : List (List Char)) (hh : h ≤ doc.length) :
    restoreOriginalLineOrder (originalLineOrder h key doc) h
      (sortRowsByColumn h key doc) = doc := by
  have hlentake : (doc.take h).length = h := by
    rw [List.length_take]
    omega
  have hbodylen : (doc.drop h).length = doc.length - h := by
    rw [List.length_drop]
  have hperm := sortPermutation_perm
    (fun i => key ((doc.drop h).getD i [])) (doc.length - h)
  have hσlen : (originalLineOrder h key doc).length = doc.length - h := by
    rw [originalLineOrder, hperm.length_eq, List.length_range]
  have hσmem : ∀ i, i ∈ originalLineOrder h key doc ↔ i < doc.length - h := by
    intro i
    rw [originalLineOrder, hperm.mem_iff, List.mem_range]
  have htake : (sortRowsByColumn h key doc).take h = doc.take h := by
    rw [sortRowsByColumn]
    calc (doc.take h ++ _).take h
        = (doc.take h ++ _).take (doc.take h).length := by rw [hlentake]
      _ = doc.take h := List.take_left _ _
  have hdrop : (sortRowsByColumn h key doc).drop h =
      (originalLineOrder h key doc).map
        (fun i => (doc.drop h).getD i []) := by
    rw [sortRowsByColumn, originalLineOrder]
    calc (doc.take h ++ _).drop h
        = (doc.take h ++ _).drop (doc.take h).length := by rw [hlentake]
      _ = _ := List.drop_left _ _
  rw [restoreOriginalLineOrder, htake, hdrop, hσlen]
  have helem : ∀ i ∈ List.range (doc.length - h),
      ((originalLineOrder h key doc).map
          (fun j => (doc.drop h).getD j [])).getD
        ((originalLineOrder h key doc).indexOf i) [] =
      (doc.drop h).getD i [] := by
    intro i hi
    rw [List.mem_range] at hi
    have himem : i ∈ originalLineOrder h key doc := (hσmem i).mpr hi
    have hidx : (originalLineOrder h key doc).indexOf i <
        (originalLineOrder h key doc).length :=
      List.indexOf_lt_length.mpr himem
    have hidx2 : (originalLineOrder h key doc).indexOf i <
        ((originalLineOrder h key doc).map
          (fun j => (doc.drop h).getD j [])).length := by
      simpa using hidx
    rw [List.getD_eq_getElem _ _ hidx2, List.getElem_map,
      List.getElem_indexOf hidx]
  rw [List.map_congr_left helem, ← hbodylen, range_map_getD,
    List.take_append_drop]

/-- The sort is stable: among body rows with equal keys, the sorted
order keeps the original row order. -/
theorem sortPermutation_stable (key : Nat → List Char) (n p q : Nat)
    (hp : p < (sortPermutation key n).length)
    (hq : q < (sortPermutation key n).length) (hpq : p < q)
    (hkey : key ((sortPermutation key n)[p]) =
      key ((sortPermutation key n)[q])) :
    (sortPermutation key n)[p] < (sortPermutation key n)[q] := by
  have hs : List.Sorted (rowOrderRel key)
      (sortPermutation key n) :=
    List.sorted_insertionSort (rowOrderRel key) (List.range n)
  have hnodup : (sortPermutation key n).Nodup :=
    ((sortPermutation_perm key n).nodup_iff).mpr (List.nodup_range n)
  have hr := List.pairwise_iff_getElem.mp hs p q hp hq hpq
  rcases hr with hlt | ⟨-, hle⟩
  · rw [hkey] at hlt
    exact absurd hlt (lt_irrefl _)
  · have hne : (sortPermutation key n)[p] ≠ (sortPermutation key n)[q] := by
      intro he
      exact absurd ((hnodup.getElem_inj_iff).mp he) (by omega)
    exact lt_of_le_of_ne hle hne

/-- The header lines are never reordered by the sort. -/
theorem sortRows_preserves_header (h : Nat) (key : List Char → List Char)
    (doc : List (List Char)) (hh : h ≤ doc.length) :
    (sortRowsByColumn h key doc).take h = doc.take h := by
  have hlentake : (doc.take h).length = h := by
    rw [List.length_take]
    omega
  rw [sortRowsByColumn]
  calc (doc.take h ++ _).take h
      = (doc.take h ++ _).take (doc.take h).length := by rw [hlentake]
    _ = doc.take h := List.take_left _ _

/-- Modelled from the spec: the document of the sort/restore scenario —
one header line and three CSV rows whose first-column keys are b, a,
b. -/
def demoDoc : List (List Char) :=
  ["key".data, "b,2".data, "a,1".data, "b,1".data]

/-- C7: sorting rows by a column and then restoring on an unmodified
document returns the document to byte-identical original line order;
the sort is stable — body rows with equal keys keep their relative
original order — and the configured header lines are never reordered.
The concrete conjuncts sort a one-header CSV document on its first
column (keys b, a, b): the two b-rows keep their relative order and the
restore rebuilds the original document exactly. -/
theorem sortRows_restore_roundtrip :
    (∀ (h : Nat) (key : List Char → List Char) (doc : List (List Char)),
      h ≤ doc.length →
      restoreOriginalLineOrder (originalLineOrder h key doc) h
        (sortRowsByColumn h key doc) = doc) ∧
    (∀ (key : Nat → List Char) (n p q : Nat)
      (hp : p < (sortPermutation key n).length)
      (hq : q < (sortPermutation key n).length), p < q →
      key ((sortPermutation key n)[p]) =
        key ((sortPermutation key n)[q]) →
      (sortPermutation key n)[p] < (sortPermutation key n)[q]) ∧
    (∀ (h : Nat) (key : List Char → List Char) (doc : List (List Char)),
      h ≤ doc.length →
      (sortRowsByColumn h key doc).take h = doc.take h) ∧
    sortRowsByColumn 1 (extractColumnKey csvCommaQuote 1) demoDoc =
      ["key".data, "a,1".data, "b,2".data, "b,1".data] ∧
    restoreOriginalLineOrder
      (originalLineOrder 1 (extractColumnKey csvCommaQuote 1) demoDoc) 1
      (sortRowsByColumn 1 (extractColumnKey csvCommaQuote 1) demoDoc) =
      demoDoc := by
  refine ⟨restore_after_sortRows, ?_, sortRows_preserves_header,
    by decide, by decide⟩
  intro key n p q hp hq h1 h2
  exact sortPermutation_stable key n p q hp hq h1 h2

/-- Per-line delimiter cache entry, from `struct LineInfo` in
MultiReplacePanel.h (lines 128-132): the line's delimiter positions
(`DelimiterPosition`, line 120-122, an `LRESULT` each, hence `Int`) and
the line's absolute start and end buffer offsets. -/
structure LineInfo where
  positions : List Int
  startPosition : Int
  endPosition : Int
deriving DecidableEq, Repr

/-- One change-log entry, from `MultiReplace::LogEntry` in
MultiReplacePanel.h (lines 295-298): the kind of buffer change and the
line it happened on. -/
structure LogEntry where
  changeType : ChangeType
  lineNumber : Nat
deriving DecidableEq, Repr

/-- Modelled from the spec: one buffer edit as the host applies it —
the log entry it generates (`LogEntry` keeps only kind and line) plus
the content the maintainer will rescan from the buffer. -/
inductive EditOp where
  | insertLine (line : Nat) (content : List Char)
  | deleteLine (line : Nat)
  | modifyLine (line : Nat) (content : List Char)
deriving DecidableEq, Repr

/-- The change-log entry an edit generates. -/
def EditOp.toLogEntry : EditOp → LogEntry
  | .insertLine l _ => ⟨ChangeType.insert, l⟩
  | .deleteLine l => ⟨ChangeType.delete, l⟩
  | .modifyLine l _ => ⟨ChangeType.modify, l⟩

/-- The host buffer (a list of lines) after one edit. -/
def applyEdit (buf : List (List Char)) : EditOp → List (List Char)
  | .insertLine l s => buf.take l ++ s :: buf.drop l
  | .deleteLine l => buf.eraseIdx l
  | .modifyLine l s => buf.set l s

/-- An edit is in range for the buffer it is applied to (the spec's
"well-ordered log": every entry's line number reflects the earlier
entries' effects). -/
def ValidEdit (buf : List (List Char)) : EditOp → Prop
  | .insertLine l _ => l ≤ buf.length
  | .deleteLine l => l < buf.length
  | .modifyLine l _ => l < buf.length

/-- A change log whose entries are each in range for the buffer state
they meet. -/
def ValidLog : List (List Char) → List EditOp → Prop
  | _, [] => True
  | buf, e :: es => ValidEdit buf e ∧ ValidLog (applyEdit buf e) es

/-- Modelled from the spec: the cache entry for one line scanned at
absolute start offset `s` — the line's delimiter offsets made absolute,
and its start and end positions. -/
def scanLineAbs (d : ColumnDelimiterData) (s : Int) (line : List Char) :
    LineInfo :=
  { positions := (findDelimitersInLine d line).map (fun r => s + (r : Int)),
    startPosition := s,
    endPosition := s + line.length }

/-- Total length in buffer positions of a run of lines, each line
followed by one end-of-line sequence of length `eol`. -/
def docLen (eol : Nat) : List (List Char) → Int
  | [] => 0
  | line :: rest => line.length + eol + docLen eol rest

/-- Modelled from the spec: the scanning loop of
`MultiReplace::findAllDelimitersInDocument` from absolute offset `s`
on. -/
def findAllDelimitersFrom (d : ColumnDelimiterData) (eol : Nat)
    (s : Int) : List (List Char) → List LineInfo
  | [] => []
  | line :: rest =>
    scanLineAbs d s line ::
      findAllDelimitersFrom d eol (s + line.length + eol) rest

/-- Modelled from the spec: `MultiReplace::findAllDelimitersInDocument`
(declared in MultiReplacePanel.h line 493; its body is not in the
repository snapshot) — the full cold rebuild of the delimiter index
over the whole buffer. -/
def findAllDelimitersInDocument (d : ColumnDelimiterData) (eol : Nat)
    (buf : List (List Char)) : List LineInfo :=
  findAllDelimitersFrom d eol 0 buf

/-- Shift one cached entry by a signed offset delta. -/
def shiftLineInfo (delta : Int) (li : LineInfo) : LineInfo :=
  { positions := li.positions.map (fun p => p + delta),
    startPosition := li.startPosition + delta,
    endPosition := li.endPosition + delta }

/-- Start offset of line `l` as the cached index knows it: 0 for the
first line, otherwise one end-of-line past the previous entry's end. -/
def startOfLine (eol : Nat) (idx : List LineInfo) (l : Nat) : Int :=
  if l = 0 then 0
  else (idx.getD (l - 1) ⟨[], 0, 0⟩).endPosition + eol

/-- Modelled from the spec:
`MultiReplace::updateDelimitersInDocument` (declared in
MultiReplacePanel.h line 501; its body is not in the repository
snapshot) — patch the cached index for one change-log entry instead of
rescanning the document: an insert shifts the entries at and after the
line and scans the new line fresh, a delete drops the entry and shifts
the rest back, a modify rescans only that line and shifts the later
entries by the length delta.  `buf2` is the buffer after the change,
from which the affected line is rescanned. -/
def updateDelimitersInDocument (d : ColumnDelimiterData) (eol : Nat)
    (buf2 : List (List Char)) (idx : List LineInfo) (e : LogEntry) :
    List LineInfo :=
  match e.changeType with
  | ChangeType.insert =>
    let l := e.lineNumber
    let content := buf2.getD l []
    let ne := scanLineAbs d (startOfLine eol idx l) content
    let delta : Int := content.length + eol
    idx.take l ++ ne :: (idx.drop l).map (shiftLineInfo delta)
  | ChangeType.delete =>
    let l := e.lineNumber
    let old := idx.getD l ⟨[], 0, 0⟩
    let delta : Int := (old.endPosition - old.startPosition) + eol
    idx.take l ++ (idx.drop (l + 1)).map (shiftLineInfo (-delta))
  | ChangeType.modify =>
    let l := e.lineNumber
    let old := idx.getD l ⟨[], 0, 0⟩
    let content := buf2.getD l []
    let ne := scanLineAbs d old.startPosition content
    let delta : Int :=
      (content.length : Int) - (old.endPosition - old.startPosition)
    idx.take l ++ ne :: (idx.drop (l + 1)).map (shiftLineInfo delta)

/-- Modelled from the spec:
`MultiReplace::processLogForDelimiters` (declared in
MultiReplacePanel.h line 502; its body is not in the repository
snapshot) — consume the change log in arrival (FIFO) order, patching
the cached index once per entry while the buffer evolves. -/
def processLogForDelimiters (d : ColumnDelimiterData) (eol : Nat)
    (idx : List LineInfo) (buf : List (List Char)) :
    List EditOp → List LineInfo
  | [] => idx
  | e :: es =>
    processLogForDelimiters d eol
      (updateDelimitersInDocument d eol (applyEdit buf e) idx e.toLogEntry)
      (applyEdit buf e) es

/-- The rebuilt index has one entry per line. -/
theorem findAllFrom_length (d : ColumnDelimiterData) (eol : Nat) :
    ∀ (buf : List (List Char)) (s : Int),
      (findAllDelimitersFrom d eol s buf).length = buf.length := by
  intro buf
  induction buf with
  | nil => intro s; rfl
  | cons x xs ih =>
    intro s
    simp [findAllDelimitersFrom, ih]

/-- Document length distributes over appending line runs. -/
theorem docLen_append (eol : Nat) :
    ∀ (xs ys : List (List Char)),
      docLen eol (xs ++ ys) = docLen eol xs + docLen eol ys := by
  intro xs ys
  induction xs with
  | nil => simp [docLen]
  | cons x xs ih =>
    simp only [List.cons_append, List.append_eq, docLen]
    rw [ih]
    ring

/-- Rebuilding an appended run of lines rebuilds each part, the second
from the offset past the first. -/
theorem findAllFrom_append (d : ColumnDelimiterData) (eol : Nat) :
    ∀ (xs ys : List (List Char)) (s : Int),
      findAllDelimitersFrom d eol s (xs ++ ys) =
        findAllDelimitersFrom d eol s xs ++
          findAllDelimitersFrom d eol (s + docLen eol xs) ys := by
  intro xs
  induction xs with
  | nil =>
    intro ys s
    simp [findAllDelimitersFrom, docLen]
  | cons x xs ih =>
    intro ys s
    simp only [List.cons_append, List.append_eq, findAllDelimitersFrom,
      docLen]
    rw [ih]
    have ha : s + (x.length : Int) + eol + docLen eol xs =
        s + ((x.length : Int) + eol + docLen eol xs) := by ring
    rw [ha]

/-- Scanning a line from a shifted start shifts its cache entry. -/
theorem scanLineAbs_shift (d : ColumnDelimiterData) (s delta : Int)
    (line : List Char) :
    scanLineAbs d (s + delta) line =
      shiftLineInfo delta (scanLineAbs d s line) := by
  simp only [scanLineAbs, shiftLineInfo, List.map_map, LineInfo.mk.injEq]
  refine ⟨List.map_congr_left fun r _ => ?_, trivial, by ring_nf⟩
  simp only [Function.comp]
  ring_nf

/-- Rebuilding from a shifted start shifts every cache entry. -/
theorem findAllFrom_shift (d : ColumnDelimiterData) (eol : Nat) :
    ∀ (buf : List (List Char)) (s delta : Int),
      findAllDelimitersFrom d eol (s + delta) buf =
        (findAllDelimitersFrom d eol s buf).map (shiftLineInfo delta) := by
  intro buf
  induction buf with
  | nil => intro s delta; rfl
  | cons x xs ih =>
    intro s delta
    simp only [findAllDelimitersFrom, List.map_cons, scanLineAbs_shift]
    have ha : s + delta + (x.length : Int) + eol =
        (s + (x.length : Int) + eol) + delta := by ring
    rw [ha, ih]

/-- Shifting twice accumulates the deltas. -/
theorem shiftLineInfo_comp (a b : Int) (li : LineInfo) :
    shiftLineInfo a (shiftLineInfo b li) = shiftLineInfo (b + a) li := by
  simp only [shiftLineInfo, List.map_map, LineInfo.mk.injEq]
  refine ⟨List.map_congr_left fun r _ => ?_, by ring, by ring⟩
  simp only [Function.comp]
  ring_nf

/-- Shifting by zero changes nothing. -/
theorem shiftLineInfo_zero (li : LineInfo) : shiftLineInfo 0 li = li := by
  simp [shiftLineInfo]

/-- The cache entry the rebuilt index holds for line `l`. -/
theorem findAllFrom_getD (d : ColumnDelimiterData) (eol : Nat) :
    ∀ (buf : List (List Char)) (s : Int) (l : Nat), l < buf.length →
      (findAllDelimitersFrom d eol s buf).getD l ⟨[], 0, 0⟩ =
        scanLineAbs d (s + docLen eol (buf.take l)) (buf.getD l []) := by
  intro buf
  induction buf with
  | nil => intro s l hl; simp at hl
  | cons x xs ih =>
    intro s l hl
    match l with
    | 0 =>
      simp [findAllDelimitersFrom, docLen, List.getD]
    | m + 1 =>
      have hm : m < xs.length := by simpa using hl
      simp only [findAllDelimitersFrom, List.getD_cons_succ,
        List.take_succ_cons, docLen]
      rw [ih (s + x.length + eol) m hm]
      have ha : s + (x.length : Int) + eol + docLen eol (xs.take m) =
          s + ((x.length : Int) + eol + docLen eol (xs.take m)) := by ring
      rw [ha]

/-- The cached start offset of line `l` agrees with the document
length of the lines before it. -/
theorem startOfLine_rebuild (d : ColumnDelimiterData) (eol : Nat)
    (buf : List (List Char)) (l : Nat) (hl : l ≤ buf.length) :
    startOfLine eol (findAllDelimitersInDocument d eol buf) l =
      docLen eol (buf.take l) := by
  rcases Nat.eq_zero_or_pos l with rfl | hpos
  · simp [startOfLine, docLen]
  obtain ⟨m, rfl⟩ : ∃ m, l = m + 1 := ⟨l - 1, by omega⟩
  have hm : m < buf.length := by omega
  rw [startOfLine, if_neg (by omega), Nat.add_sub_cancel,
    findAllDelimitersInDocument,
    findAllFrom_getD d eol buf 0 m hm]
  have htake : buf.take (m + 1) = buf.take m ++ [buf.getD m []] := by
    rw [List.take_succ, List.getElem?_eq_getElem hm]
    rw [List.getD_eq_getElem _ _ hm]
    rfl
  rw [htake, docLen_append]
  simp only [scanLineAbs, docLen]
  ring

/-- The first `l` entries of the rebuilt index are the rebuild of the
first `l` lines. -/
theorem rebuild_take (d : ColumnDelimiterData) (eol : Nat)
    (buf : List (List Char)) (l : Nat) (hl : l ≤ buf.length) :
    (findAllDelimitersInDocument d eol buf).take l =
      findAllDelimitersFrom d eol 0 (buf.take l) := by
  rw [findAllDelimitersInDocument]
  conv =>
    lhs
    rw [← List.take_append_drop l buf]
  rw [findAllFrom_append]
  have hlen : (findAllDelimitersFrom d eol 0 (buf.take l)).length = l := by
    rw [findAllFrom_length, List.length_take]
    omega
  calc (findAllDelimitersFrom d eol 0 (buf.take l) ++ _).take l
      = (findAllDelimitersFrom d eol 0 (buf.take l) ++ _).take
          (findAllDelimitersFrom d eol 0 (buf.take l)).length := by rw [hlen]
    _ = findAllDelimitersFrom d eol 0 (buf.take l) := List.take_left _ _

/-- The entries of the rebuilt index from line `l` on are the rebuild
of the lines from `l` on, started past the first `l` lines. -/
theorem rebuild_drop (d : ColumnDelimiterData) (eol : Nat)
    (buf : List (List Char)) (l : Nat) (hl : l ≤ buf.length) :
    (findAllDelimitersInDocument d eol buf).drop l =
      findAllDelimitersFrom d eol (docLen eol (buf.take l))
        (buf.drop l) := by
  rw [findAllDelimitersInDocument]
  conv =>
    lhs
    rw [← List.take_append_drop l buf]
  rw [findAllFrom_append]
  have hlen : (findAllDelimitersFrom d eol 0 (buf.take l)).length = l := by
    rw [findAllFrom_length, List.length_take]
    omega
  calc (findAllDelimitersFrom d eol 0 (buf.take l) ++ _).drop l
      = (findAllDelimitersFrom d eol 0 (buf.take l) ++ _).drop
          (findAllDelimitersFrom d eol 0 (buf.take l)).length := by rw [hlen]
    _ = _ := List.drop_left _ _
    _ = _ := by rw [Int.zero_add]

/-- Element at the junction of an append. -/
theorem getD_append_cons {α : Type} (A : List α) (b : α) (B : List α)
    (dflt : α) : (A ++ b :: B).getD A.length dflt = b := by
  have hlt : A.length < (A ++ b :: B).length := by
    simp
  rw [List.getD_eq_getElem _ _ hlt,
    List.getElem_append_right (Nat.le_refl A.length)]
  simp

/-- Document length of one more leading line. -/
theorem docLen_take_succ (eol : Nat) (buf : List (List Char)) (l : Nat)
    (hl : l < buf.length) :
    docLen eol (buf.take (l + 1)) =
      docLen eol (buf.take l) + (buf.getD l []).length + eol := by
  have htake : buf.take (l + 1) = buf.take l ++ [buf.getD l []] := by
    rw [List.take_succ, List.getElem?_eq_getElem hl,
      List.getD_eq_getElem _ _ hl]
    rfl
  rw [htake, docLen_append]
  simp only [docLen]
  ring

/-- Two shifts of a whole index collapse into one. -/
theorem map_shift_shift (a b : Int) (L : List LineInfo) :
    (L.map (shiftLineInfo a)).map (shiftLineInfo b) =
      L.map (shiftLineInfo (a + b)) := by
  rw [List.map_map]
  exact List.map_congr_left fun li _ => shiftLineInfo_comp b a li

/-- A shift followed by its inverse restores the index. -/
theorem map_shift_cancel (a : Int) (L : List LineInfo) :
    (L.map (shiftLineInfo a)).map (shiftLineInfo (-a)) = L := by
  rw [map_shift_shift]
  have : a + -a = 0 := by ring
  rw [this]
  exact (List.map_congr_left fun li _ => shiftLineInfo_zero li).trans
    (List.map_id L)

/-- One maintainer step on an index that is a faithful rebuild yields
exactly the rebuild of the post-edit buffer. -/
theorem updateDelimiters_step (d : ColumnDelimiterData) (eol : Nat)
    (buf : List (List Char)) (e : EditOp) (hv : ValidEdit buf e) :
    updateDelimitersInDocument d eol (applyEdit buf e)
      (findAllDelimitersInDocument d eol buf) e.toLogEntry =
    findAllDelimitersInDocument d eol (applyEdit buf e) := by
  match e with
  | .insertLine l s =>
    have hl : l ≤ buf.length := hv
    have hlenT : (buf.take l).length = l := by
      rw [List.length_take]
      omega
    have hcontent : (buf.take l ++ s :: buf.drop l).getD l [] = s := by
      have h := getD_append_cons (buf.take l) s (buf.drop l) []
      rwa [hlenT] at h
    simp only [applyEdit, EditOp.toLogEntry, updateDelimitersInDocument,
      hcontent]
    rw [startOfLine_rebuild d eol buf l hl,
      rebuild_take d eol buf l hl, rebuild_drop d eol buf l hl]
    conv =>
      rhs
      rw [findAllDelimitersInDocument, findAllFrom_append]
    rw [Int.zero_add]
    simp only [findAllDelimitersFrom]
    congr 2
    rw [← findAllFrom_shift]
    congr 1
    ring_nf
  | .deleteLine l =>
    have hl : l < buf.length := hv
    have hold : (findAllDelimitersInDocument d eol buf).getD l
        ⟨[], 0, 0⟩ =
        scanLineAbs d (docLen eol (buf.take l)) (buf.getD l []) := by
      rw [findAllDelimitersInDocument]
      have h := findAllFrom_getD d eol buf 0 l hl
      rwa [Int.zero_add] at h
    simp only [applyEdit, EditOp.toLogEntry, updateDelimitersInDocument,
      hold, scanLineAbs]
    rw [rebuild_take d eol buf l (by omega),
      rebuild_drop d eol buf (l + 1) (by omega),
      docLen_take_succ eol buf l hl]
    conv =>
      rhs
      rw [List.eraseIdx_eq_take_drop_succ, findAllDelimitersInDocument,
        findAllFrom_append, Int.zero_add]
    congr 1
    have ha : docLen eol (buf.take l) + ((buf.getD l []).length : Int) +
        eol = docLen eol (buf.take l) +
          ((docLen eol (buf.take l) + (buf.getD l []).length -
            docLen eol (buf.take l)) + eol) := by ring
    rw [ha, findAllFrom_shift d eol (buf.drop (l + 1))
      (docLen eol (buf.take l))]
    exact map_shift_cancel _ _
  | .modifyLine l s =>
    have hl : l < buf.length := hv
    have hold : (findAllDelimitersInDocument d eol buf).getD l
        ⟨[], 0, 0⟩ =
        scanLineAbs d (docLen eol (buf.take l)) (buf.getD l []) := by
      rw [findAllDelimitersInDocument]
      have h := findAllFrom_getD d eol buf 0 l hl
      rwa [Int.zero_add] at h
    have hset : buf.set l s = buf.take l ++ s :: buf.drop (l + 1) := by
      rw [List.set_eq_take_append_cons_drop, if_pos hl]
    have hlenT : (buf.take l).length = l := by
      rw [List.length_take]
      omega
    have hcontent : (buf.set l s).getD l [] = s := by
      rw [hset]
      have h := getD_append_cons (buf.take l) s (buf.drop (l + 1)) []
      rwa [hlenT] at h
    simp only [applyEdit, EditOp.toLogEntry, updateDelimitersInDocument,
      hold, hcontent, scanLineAbs]
    rw [rebuild_take d eol buf l (by omega),
      rebuild_drop d eol buf (l + 1) (by omega),
      docLen_take_succ eol buf l hl]
    conv =>
      rhs
      rw [hset, findAllDelimitersInDocument, findAllFrom_append,
        Int.zero_add]
    simp only [findAllDelimitersFrom]
    congr 2
    have ha : docLen eol (buf.take l) + (s.length : Int) + eol =
        (docLen eol (buf.take l) + ((buf.getD l []).length : Int) + eol) +
          ((s.length : Int) -
            ((docLen eol (buf.take l) + (buf.getD l []).length) -
              docLen eol (buf.take l))) := by ring
    conv =>
      rhs
      rw [ha, findAllFrom_shift d eol (buf.drop (l + 1))]

/-- Replaying a well-ordered change log in FIFO order over a freshly
rebuilt index yields exactly the rebuild of the final buffer. -/
theorem processLog_replay (d : ColumnDelimiterData) (eol : Nat) :
    ∀ (es : List EditOp) (buf : List (List Char)), ValidLog buf es →
      processLogForDelimiters d eol
        (findAllDelimitersInDocument d eol buf) buf es =
      findAllDelimitersInDocument d eol (es.foldl applyEdit buf) := by
  intro es
  induction es with
  | nil => intro buf _; rfl
  | cons e es ih =>
    intro buf hv
    obtain ⟨hv1, hv2⟩ := hv
    show processLogForDelimiters d eol
      (updateDelimitersInDocument d eol (applyEdit buf e)
        (findAllDelimitersInDocument d eol buf) e.toLogEntry)
      (applyEdit buf e) es = _
    rw [updateDelimiters_step d eol buf e hv1, ih (applyEdit buf e) hv2,
      List.foldl_cons]

/-- Modelled from the spec: a two-line CSV buffer used to exercise the
incremental maintainer on all three change kinds. -/
def demoBuffer : List (List Char) := ["a,b".data, "cc".data]

/-- Modelled from the spec: a well-ordered change log — insert a line,
modify the first line, delete the last line. -/
def demoEdits : List EditOp :=
  [EditOp.insertLine 1 "x,y".data,
   EditOp.modifyLine 0 "q,,r".data,
   EditOp.deleteLine 2]

/-- C1: incremental/full equivalence of the delimiter index — for every
delimiter/quote configuration, end-of-line length and initial buffer,
building the index with a full rebuild and then applying every
subsequent change-log entry in arrival (FIFO) order yields an index
equal to a full rebuild run directly on the final buffer state,
provided each log entry's line number is in range for the buffer state
it meets (the spec's well-ordered log).  The concrete conjunct replays
an insert, a modify and a delete over a two-line CSV buffer. -/
theorem delimiterIndex_incremental_full_equivalence :
    (∀ (d : ColumnDelimiterData) (eol : Nat) (buf : List (List Char))
      (es : List EditOp), ValidLog buf es →
      processLogForDelimiters d eol
        (findAllDelimitersInDocument d eol buf) buf es =
      findAllDelimitersInDocument d eol (es.foldl applyEdit buf)) ∧
    processLogForDelimiters csvCommaQuote 1
      (findAllDelimitersInDocument csvCommaQuote 1 demoBuffer) demoBuffer
      demoEdits =
    findAllDelimitersInDocument csvCommaQuote 1
      (demoEdits.foldl applyEdit demoBuffer) := by
  exact ⟨fun d eol buf es hv => processLog_replay d eol es buf hv,
    by decide⟩
